import Mathlib

/-!
Verification of the tab-domain registry and cookie-deletion coordinator of a
browser-extension background script (`background.js`).

The embedding is shallow: the mutable globals of the script
(`tabData`, `isEnabled`, `isShuttingDown`, `pendingDeletions`,
`domainCookieCache`) become a state record, each event listener becomes a
case of a `step` function over that state, and the asynchronous deletion
pipeline is additionally modelled as a small-step system whose suspension
points (`await chrome.cookies.getAll`, `await Promise.all`) are explicit.
JavaScript `Map`s are modelled as insertion-ordered association lists
(matching `Map` iteration order), JS strings as `String`, and JS string
truthiness (`if (x)` on a string) as an explicit `≠ ""` test.
-/

namespace CookieExt

/-- Does the character list `s` begin with the character list `p`?
Models JavaScript `String.prototype.startsWith` on string data. -/
def beginsWith : List Char → List Char → Bool
  | _, [] => true
  | [], _ :: _ => false
  | a :: as, b :: bs => (a == b) && beginsWith as bs

/-- Does the character list `hay` contain `needle` as a contiguous sublist?
Models JavaScript `String.prototype.includes`. -/
def hasSub (needle : List Char) : List Char → Bool
  | [] => beginsWith [] needle
  | a :: t => beginsWith (a :: t) needle || hasSub needle t

/-- JS `s.startsWith(p)`. -/
def strBegins (s p : String) : Bool := beginsWith s.data p.data

/-- JS `s.includes(sub)`. -/
def strHas (s sub : String) : Bool := hasSub sub.data s.data

/-- JS `s.slice(n)` restricted to the uses in this development. -/
def strDrop (s : String) (n : Nat) : String := String.mk (s.data.drop n)

/-- ASCII lower-casing of one character, as the URL parser applies to hosts. -/
def charLower (c : Char) : Char :=
  if 'A' ≤ c ∧ c ≤ 'Z' then Char.ofNat (c.toNat + 32) else c

/-- ASCII lower-casing of a string. -/
def strLower (s : String) : String := String.mk (s.data.map charLower)

/-- A character that terminates the host component of a URL authority. -/
def hostStop (c : Char) : Bool := c == '/' || c == ':' || c == '?' || c == '#'

/-- Extract the (lowercased) host from the part of a URL after `scheme://`. -/
def hostOf (scheme rest : String) : Option (String × String) :=
  let host := String.mk (rest.data.takeWhile (fun c => !hostStop c))
  if host = "" then none else some (scheme, strLower host)

/-- Models the browser's `new URL(url)` at the interface used by the code
(§4.3 / §6 of the design: only the scheme and the lowercase hostname are
consumed, and only `http`/`https` URLs are ever looked at behind the
`isValidUrl` guard). Returns `(protocol, hostname)`, or `none` where the
code's `try { new URL(url) } catch` path treats the URL as invalid. -/
def parseUrl (url : String) : Option (String × String) :=
  if strBegins url "http://" then hostOf "http:" (strDrop url 7)
  else if strBegins url "https://" then hostOf "https:" (strDrop url 8)
  else none

/-- `isValidUrl` from `background.js`: `new URL` succeeds and the protocol is
`http:` or `https:`. -/
def isValidUrl (url : String) : Bool := (parseUrl url).isSome

/-- `getDomain` from `background.js`: the URL's hostname, or `null` on parse
failure. (Every call site guards with `isValidUrl` first, so restricting the
parser to `http(s)` URLs is faithful at all uses.) -/
def getDomain (url : String) : Option String := (parseUrl url).map Prod.snd

/-- JS `s.replace(/^\./, '')`: remove one leading dot. -/
def stripDotOnce (s : String) : String :=
  if strBegins s "." then strDrop s 1 else s

/-- JS `s.replace(/^www\./, '')`: remove one leading `www.`. -/
def stripWww (s : String) : String :=
  if strBegins s "www." then strDrop s 4 else s

/-- The cookie/tab domain relation used by the `relevantCookies` filter in
`deleteCookiesForDomain` (background.js lines 126-130): the cookie domain
has one leading `.` stripped, the tab domain has one leading `www.` stripped
(line 109, `mainDomain`), and the two are tested for mutual substring
containment. -/
def related (cookieDomain tabDomain : String) : Bool :=
  let mainDomain := stripWww tabDomain
  let cd := stripDotOnce cookieDomain
  strHas cd mainDomain || strHas mainDomain cd

/-- Modelled from the spec (§4.3): the spec's description of `related`
normalizes BOTH arguments "by stripping a leading `.` (cookie-jar wildcard
marker) and a leading `www.`", then tests mutual substring containment.
This definition follows the spec's words; it is compared against `related`,
which is translated from the source. -/
def specRelated (cookieDomain tabDomain : String) : Bool :=
  let c := stripWww (stripDotOnce cookieDomain)
  let t := stripWww (stripDotOnce tabDomain)
  strHas c t || strHas t c

/-! ## Association lists

JavaScript `Map`s preserve insertion order; `Map.set` of an existing key
updates in place, otherwise appends; iteration visits entries in that order.
`tabData` and `domainCookieCache` are modelled as association lists with
exactly these operations. -/

/-- `Map.get(k)` (as an `Option`). -/
def alGet {κ ν : Type} [BEq κ] (m : List (κ × ν)) (k : κ) : Option ν :=
  (m.find? (fun p => p.1 == k)).map Prod.snd

/-- `Map.set(k, v)`: update in place if the key is present, else append. -/
def alSet {κ ν : Type} [BEq κ] (m : List (κ × ν)) (k : κ) (v : ν) : List (κ × ν) :=
  if m.any (fun p => p.1 == k) then m.map (fun p => if p.1 == k then (k, v) else p)
  else m ++ [(k, v)]

/-- `Map.delete(k)`. -/
def alDel {κ ν : Type} [BEq κ] (m : List (κ × ν)) (k : κ) : List (κ × ν) :=
  m.filter (fun p => p.1 != k)

/-! ## Data model -/

/-- One cookie as surfaced by `chrome.cookies.getAll`. -/
structure Cookie where
  domain : String
  name : String
  path : String
  secure : Bool
deriving DecidableEq

/-- One `tabData` entry: `{url, domain, timestamp, windowId}`. -/
structure TabEntry where
  url : String
  domain : String
  timestamp : Nat
  windowId : Nat
deriving DecidableEq

/-- The registry `tabId → TabEntry`. -/
abbrev TabMap := List (Nat × TabEntry)

/-- The mutable globals of `background.js`. -/
structure BgState where
  tabData : TabMap
  isEnabled : Bool
  isShuttingDown : Bool
  pendingDeletions : List String
  domainCookieCache : List (String × Nat)
deriving DecidableEq

/-- `MAX_TABS` (background.js line 31). -/
def MAX_TABS : Nat := 100

/-- `CACHE_TIMEOUT` in milliseconds (background.js line 101). -/
def CACHE_TIMEOUT : Nat := 5000

/-- The staleness threshold of the periodic sweep: thirty minutes in
milliseconds (background.js line 270). -/
def STALE_MS : Nat := 30 * 60 * 1000

/-- The `url` passed to `chrome.cookies.remove`:
`(cookie.secure ? 'https:' : 'http:') + '//' + cookie.domain + cookie.path`. -/
def cookieUrl (c : Cookie) : String :=
  (if c.secure then "https:" else "http:") ++ "//" ++ c.domain ++ c.path

/-- Result of one (sequentially modelled) `deleteCookiesForDomain` call:
the post-state, how many `chrome.cookies.getAll` reads were issued, and the
`(url, name)` arguments of the `chrome.cookies.remove` calls issued. -/
structure DelResult where
  state : BgState
  getAllCalls : Nat
  removeCalls : List (String × String)
deriving DecidableEq

/-- The body of a deletion pass past the cache check (background.js lines
118-147): read the store, record `mainDomain` in the cache with the current
time, filter the related cookies, and issue one remove per related cookie. -/
def runDeletionPass (s : BgState) (domain : String) (now : Nat)
    (store : List Cookie) : DelResult :=
  let mainDomain := stripWww domain
  let cache1 := alSet s.domainCookieCache mainDomain now
  let relevant := store.filter (fun c => c.domain != "" && related c.domain domain)
  ⟨{ s with domainCookieCache := cache1 }, 1,
    relevant.map (fun c => (cookieUrl c, c.name))⟩

/-- `deleteCookiesForDomain` (background.js lines 104-152), modelled as one
sequential step with the cookie store passed in as the `getAll` result.
The guard mirrors `if (!domain || !isEnabled || isShuttingDown) return;` and
the cache check mirrors
`if (cachedTime && Date.now() - cachedTime < CACHE_TIMEOUT) return;`
(note: JS truthiness makes a stored timestamp `0` behave as no cache entry). -/
def deleteCookiesForDomain (s : BgState) (domain : String) (now : Nat)
    (store : List Cookie) : DelResult :=
  if domain == "" || !s.isEnabled || s.isShuttingDown then ⟨s, 0, []⟩
  else
    match alGet s.domainCookieCache (stripWww domain) with
    | some t =>
      if t != 0 && now - t < CACHE_TIMEOUT then ⟨s, 0, []⟩
      else runDeletionPass s domain now store
    | none => runDeletionPass s domain now store

/-- Messages from the popup (`chrome.runtime.onMessage`). -/
inductive Msg where
  | toggleStateChanged (enabled : Bool)
  | getState
deriving DecidableEq

/-- The external lifecycle events handled by `background.js`, normalized to
the fields each listener reads. `updated` carries `changeInfo.url`,
`changeInfo.status === 'complete'`, `tab.url` and `tab.windowId`. -/
inductive Ev where
  | created (id : Nat) (url : String) (windowId : Nat) (incognito : Bool)
  | updated (id : Nat) (changeUrl : Option String) (statusComplete : Bool)
      (tabUrl : Option String) (windowId : Nat)
  | historyNav (id : Nat) (url : String)
  | removed (id : Nat)
  | windowRemoved (windowId : Nat)
  | message (m : Msg)
  | periodicCleanup
deriving DecidableEq

/-- Output of one event step: post-state, the arguments of the
`deleteCookiesForDomain` calls the handler issued (the "deletion requests"),
and the external cookie-store traffic. -/
structure StepOut where
  state : BgState
  requests : List String
  getAllCalls : Nat
  removeCalls : List (String × String)
deriving DecidableEq

/-- A step with no effect. -/
def noop (s : BgState) : StepOut := ⟨s, [], 0, []⟩

/-- The oldest-tab scan of the `onCreated` handler (background.js lines
209-218): `oldestTabId = null; oldestTimestamp = Date.now();` then one pass
over the entries taking every strictly smaller timestamp. -/
def findOldestGo : TabMap → Option Nat → Nat → Option Nat
  | [], best, _ => best
  | (id, d) :: rest, best, bestTs =>
    if d.timestamp < bestTs then findOldestGo rest (some id) d.timestamp
    else findOldestGo rest best bestTs

/-- `findOldest m now`: the tab id selected for eviction, if any. -/
def findOldest (m : TabMap) (now : Nat) : Option Nat := findOldestGo m none now

/-- The firing condition of the `onUpdated` body:
`changeInfo.url || changeInfo.status === 'complete'` (with JS string
truthiness on `changeInfo.url`). -/
def triggersUpdate (changeUrl : Option String) (statusComplete : Bool) : Bool :=
  (match changeUrl with
   | some cu => cu != ""
   | none => false) || statusComplete

/-- Does an `onUpdated`-style old/new domain comparison require a deletion?
JS compares `oldData.domain !== newDomain` where `newDomain` may be `null`,
guarded by truthiness of `oldData.domain`. -/
def domainChanged (oldDomain : String) (newDomain : Option String) : Bool :=
  oldDomain != "" && (match newDomain with
                      | some nd => oldDomain != nd
                      | none => true)

/-- One event dispatch of the background script, with the wall clock `now`
(`Date.now()`) and the current cookie store passed in. Each case is the
translation of the corresponding listener in `background.js`. -/
def step (s : BgState) (e : Ev) (now : Nat) (store : List Cookie) : StepOut :=
  match e with
  | .created id url w incog =>
    if incog then noop s
    else if url != "" && isValidUrl url then
      match getDomain url with
      | some domain =>
        let m0 := s.tabData
        let m1 :=
          if MAX_TABS ≤ m0.length then
            match findOldest m0 now with
            | some oldest => if oldest != 0 then alDel m0 oldest else m0
            | none => m0
          else m0
        ⟨{ s with tabData := alSet m1 id ⟨url, domain, now, w⟩ }, [], 0, []⟩
      | none => noop s
    else noop s
  | .updated id changeUrl statusComplete tabUrl w =>
    match tabUrl with
    | some u =>
      if triggersUpdate changeUrl statusComplete && u != "" && isValidUrl u then
        let newDomain := getDomain u
        match alGet s.tabData id with
        | some od =>
          if domainChanged od.domain newDomain then
            let r := deleteCookiesForDomain s od.domain now store
            match newDomain with
            | some nd =>
              ⟨{ r.state with tabData := alSet r.state.tabData id ⟨u, nd, now, w⟩ },
                [od.domain], r.getAllCalls, r.removeCalls⟩
            | none => ⟨r.state, [od.domain], r.getAllCalls, r.removeCalls⟩
          else
            match newDomain with
            | some nd =>
              ⟨{ s with tabData := alSet s.tabData id ⟨u, nd, now, w⟩ }, [], 0, []⟩
            | none => noop s
        | none =>
          match newDomain with
          | some nd =>
            ⟨{ s with tabData := alSet s.tabData id ⟨u, nd, now, w⟩ }, [], 0, []⟩
          | none => noop s
      else noop s
    | none => noop s
  | .historyNav id url =>
    if isValidUrl url then
      let newDomain := getDomain url
      match alGet s.tabData id with
      | some od =>
        if domainChanged od.domain newDomain then
          let r := deleteCookiesForDomain s od.domain now store
          match newDomain with
          | some nd =>
            ⟨{ r.state with
                tabData := alSet r.state.tabData id ⟨url, nd, now, od.windowId⟩ },
              [od.domain], r.getAllCalls, r.removeCalls⟩
          | none => ⟨r.state, [od.domain], r.getAllCalls, r.removeCalls⟩
        else noop s
      | none => noop s
    else noop s
  | .removed id =>
    match alGet s.tabData id with
    | some info =>
      if s.isEnabled && !s.isShuttingDown then
        let r := deleteCookiesForDomain s info.domain now store
        ⟨{ r.state with tabData := alDel r.state.tabData id },
          [info.domain], r.getAllCalls, r.removeCalls⟩
      else noop s
    | none => noop s
  | .windowRemoved wid =>
    if !s.isEnabled then noop s
    else
      let victims := s.tabData.filter (fun p => p.2.windowId == wid)
      victims.foldl
        (fun acc p =>
          let r := deleteCookiesForDomain acc.state p.2.domain now store
          ⟨{ r.state with tabData := alDel r.state.tabData p.1 },
            acc.requests ++ [p.2.domain], acc.getAllCalls + r.getAllCalls,
            acc.removeCalls ++ r.removeCalls⟩)
        (noop s)
  | .message m =>
    match m with
    | .toggleStateChanged b =>
      if !b then ⟨{ s with isEnabled := b, tabData := [] }, [], 0, []⟩
      else ⟨{ s with isEnabled := b }, [], 0, []⟩
    | .getState => noop s
  | .periodicCleanup =>
    if !s.isEnabled || s.isShuttingDown then noop s
    else
      let keep := s.tabData.filter (fun p => !(STALE_MS < now - p.2.timestamp))
      let activeDomains := keep.map (fun p => p.2.domain)
      let orphaned := store.filter (fun c =>
        c.domain != "" &&
        !(activeDomains.any (fun d =>
            strHas (stripDotOnce c.domain) d || strHas d (stripDotOnce c.domain))))
      ⟨{ s with tabData := keep }, [], 1,
        orphaned.map (fun c => (cookieUrl c, c.name))⟩

/-- Run a sequence of timestamped events. -/
def runTrace (store : List Cookie) : BgState → List (Ev × Nat) → BgState
  | s, [] => s
  | s, (e, t) :: rest => runTrace store (step s e t store).state rest

/-- The state right after a fresh start with the feature toggled on. -/
def initOn : BgState := ⟨[], true, false, [], []⟩

/-! ## Interleaved deletion passes

`deleteCookiesForDomain` is `async`: an invocation suspends at
`await chrome.cookies.getAll({})` and again at `await Promise.all(...)`, and
the cooperative event loop may start other work at those points. The model
below makes the suspension points explicit. A `Pass` is one in-flight
invocation; its synchronous prefix (guards and cache check) runs when the
pass starts, the block after `getAll` resolves (cache write, filter, issuing
every `chrome.cookies.remove`) runs atomically when the pass resumes — in JS
all removes are issued synchronously before `Promise.all` is awaited — and
the pass then completes, which for an activation-path pass also runs the
handler's `finally { pendingDeletions.delete(domain) }`. -/

/-- Where a pass entered the pipeline: via the `onActivated` handler (which
guards on and maintains `pendingDeletions`) or via a direct call from the
tab-removal, navigation or window-removal handlers (which do not). -/
inductive Origin where
  | activation
  | direct
deriving DecidableEq

/-- The progress of one in-flight pass. -/
inductive Phase where
  | atGetAll
  | atRemovals
  | finished
deriving DecidableEq

/-- One in-flight `deleteCookiesForDomain` invocation. `dom` is the argument,
`main` the `www.`-stripped cache key computed at entry. -/
structure Pass where
  dom : String
  main : String
  origin : Origin
  phase : Phase
deriving DecidableEq

/-- Shared state of the asynchronous deletion pipeline. `mutationPasses`
counts executions of the post-`getAll` mutation block; `removesIssued`
accumulates the arguments of every `chrome.cookies.remove` call. -/
structure AState where
  isEnabled : Bool
  isShuttingDown : Bool
  pending : List String
  cache : List (String × Nat)
  store : List Cookie
  tasks : List Pass
  getAllCount : Nat
  mutationPasses : Nat
  removesIssued : List (String × String)
deriving DecidableEq

/-- Is the cache entry for key `k` fresh at time `now`? Mirrors
`cachedTime && now - cachedTime < CACHE_TIMEOUT`. -/
def cacheFresh (c : List (String × Nat)) (k : String) (now : Nat) : Bool :=
  match alGet c k with
  | some t => t != 0 && now - t < CACHE_TIMEOUT
  | none => false

/-- The synchronous prefix of `deleteCookiesForDomain` up to the `getAll`
suspension point. An early return (empty domain, disabled, shutting down, or
fresh cache entry) completes the invocation at once — for an activation-path
caller the handler's `pendingDeletions.add` followed immediately by the
`finally` delete is a net no-op, so the state is unchanged. Otherwise the
`getAll` read is issued and the pass suspends. -/
def beginPass (s : AState) (d : String) (o : Origin) (now : Nat) : AState :=
  if d == "" || !s.isEnabled || s.isShuttingDown then s
  else if cacheFresh s.cache (stripWww d) now then s
  else
    { s with
      pending := if o == Origin.activation then s.pending ++ [d] else s.pending,
      getAllCount := s.getAllCount + 1,
      tasks := s.tasks ++ [⟨d, stripWww d, o, Phase.atGetAll⟩] }

/-- The interleaved steps of the deletion pipeline. `startActivation` is the
`onActivated` debounce body reaching one previous tab's domain (guarded by
`pendingDeletions`); `startDirect` is a call from any of the other handlers;
`resumeGetAll` resolves a pass's store read; `failGetAll` rejects it (the
`catch` path); `resumeRemovals` resolves its `Promise.all`. -/
inductive AStep where
  | startActivation (d : String) (now : Nat)
  | startDirect (d : String) (now : Nat)
  | resumeGetAll (i : Nat) (now : Nat)
  | failGetAll (i : Nat)
  | resumeRemovals (i : Nat)
deriving DecidableEq

/-- Complete the pass `t` (stored at index `i`): mark it finished and, for an
activation-path pass, run the handler's `finally` removal from
`pendingDeletions`. -/
def finishPass (s : AState) (i : Nat) (t : Pass) : AState :=
  { s with
    tasks := s.tasks.set i { t with phase := Phase.finished },
    pending := if t.origin == Origin.activation then s.pending.erase t.dom
               else s.pending }

/-- One step of the interleaved deletion pipeline. -/
def astep (s : AState) (st : AStep) : AState :=
  match st with
  | .startActivation d now =>
    if !s.isEnabled then s
    else if d == "" || s.pending.contains d then s
    else beginPass s d Origin.activation now
  | .startDirect d now => beginPass s d Origin.direct now
  | .resumeGetAll i now =>
    match s.tasks[i]? with
    | some t =>
      if t.phase == Phase.atGetAll then
        let relevant := s.store.filter
          (fun c => c.domain != "" && related c.domain t.dom)
        { s with
          cache := alSet s.cache t.main now,
          mutationPasses := s.mutationPasses + 1,
          removesIssued := s.removesIssued ++ relevant.map (fun c => (cookieUrl c, c.name)),
          tasks := s.tasks.set i { t with phase := Phase.atRemovals } }
      else s
    | none => s
  | .failGetAll i =>
    match s.tasks[i]? with
    | some t => if t.phase == Phase.atGetAll then finishPass s i t else s
    | none => s
  | .resumeRemovals i =>
    match s.tasks[i]? with
    | some t => if t.phase == Phase.atRemovals then finishPass s i t else s
    | none => s

/-- Run an interleaving of pipeline steps. -/
def runAsync : AState → List AStep → AState
  | s, [] => s
  | s, st :: rest => runAsync (astep s st) rest

/-- The number of unfinished passes for domain `d`. -/
def inFlightFor (d : String) (s : AState) : Nat :=
  s.tasks.countP (fun t => t.dom == d && t.phase != Phase.finished)

/-- The pipeline state at startup, feature enabled, with a given store. -/
def asyncInit (store : List Cookie) : AState :=
  ⟨true, false, [], [], store, [], 0, 0, []⟩

/-- Trace for claim C1: one hundred and one tab-updated events for distinct,
previously untracked tabs, each carrying a valid URL. -/
def c1Trace : List (Ev × Nat) :=
  (List.range 101).map (fun i =>
    (Ev.updated (i + 1) (some "http://a.com") false (some "http://a.com") 5, i + 1))

/-- The events that upsert into the registry: tab-created and tab-updated. -/
def isUpsertEvent : Ev → Prop
  | Ev.created _ _ _ _ => True
  | Ev.updated _ _ _ _ _ => True
  | _ => False

/-- A registry filled to capacity with one hundred tabs (ids 1..100) whose
entries all carry the same `lastSeen` timestamp 77. -/
def fullRegistrySameStamp : BgState :=
  ⟨(List.range 100).map (fun i => (i + 1, ⟨"http://a.com", "a.com", 77, 3⟩)),
    true, false, [], []⟩

/-- A registry filled to capacity with one hundred tabs (ids 1..100) whose
`lastSeen` timestamps strictly increase (1..100). -/
def fullRegistryAged : BgState :=
  ⟨(List.range 100).map (fun i => (i + 1, ⟨"http://a.com", "a.com", i + 1, 3⟩)),
    true, false, [], []⟩

/-- Is this pipeline step a direct-path (non-activation) deletion start for
domain `d`? -/
def isDirectStartFor (d : String) : AStep → Bool
  | AStep.startDirect d2 _ => d2 == d
  | _ => false

/-- The dedup invariant maintained for domain `d` when every deletion start
for `d` goes through the activation path: the pending set holds `d` exactly
as often as there are unfinished passes for `d`, at most one such pass
exists, and every unfinished pass for `d` is activation-origin. -/
def ActInv (d : String) (s : AState) : Prop :=
  s.pending.count d = inFlightFor d s ∧ inFlightFor d s ≤ 1 ∧
  ∀ t ∈ s.tasks, t.dom = d → t.phase ≠ Phase.finished →
    t.origin = Origin.activation

/-! ## Association-list lemmas -/

theorem alSet_pos {κ ν : Type} [BEq κ] {m : List (κ × ν)} {k : κ} (v : ν)
    (h : m.any (fun p => p.1 == k) = true) :
    alSet m k v = m.map (fun p => if p.1 == k then (k, v) else p) := by
  simp [alSet, h]

theorem alSet_neg {κ ν : Type} [BEq κ] {m : List (κ × ν)} {k : κ} (v : ν)
    (h : m.any (fun p => p.1 == k) = false) :
    alSet m k v = m ++ [(k, v)] := by
  simp [alSet, h]

theorem alGet_alSet_self {κ ν : Type} [BEq κ] [LawfulBEq κ]
    (m : List (κ × ν)) (k : κ) (v : ν) :
    alGet (alSet m k v) k = some v := by
  induction m with
  | nil => simp [alGet, alSet]
  | cons p t ih =>
    by_cases hp : p.1 == k
    · have hany : (p :: t).any (fun q => q.1 == k) = true := by simp [hp]
      rw [alSet_pos v hany]
      simp [alGet, hp]
    · by_cases ht : t.any (fun q => q.1 == k)
      · have hany : (p :: t).any (fun q => q.1 == k) = true := by simp [ht]
        rw [alSet_pos v hany]
        rw [alSet_pos v ht] at ih
        simpa [alGet, hp] using ih
      · have hany : (p :: t).any (fun q => q.1 == k) = false := by
          simp only [List.any_cons, hp, Bool.false_or]
          exact Bool.eq_false_iff.mpr (by simpa using ht)
        rw [alSet_neg v hany]
        rw [alSet_neg v (Bool.eq_false_iff.mpr (by simpa using ht))] at ih
        simpa [alGet, hp] using ih

theorem alSet_keeps {κ ν : Type} [BEq κ] [LawfulBEq κ] {m : List (κ × ν)}
    {q : κ × ν} (h : q ∈ m) (k : κ) (v : ν) :
    ∃ w, (q.1, w) ∈ alSet m k v := by
  by_cases hany : m.any (fun p => p.1 == k) = true
  · rw [alSet_pos v hany]
    by_cases hq : q.1 == k
    · have hk := eq_of_beq hq
      subst hk
      refine ⟨v, ?_⟩
      have him := List.mem_map_of_mem (fun p => if p.1 == q.1 then (q.1, v) else p) h
      simpa using him
    · refine ⟨q.2, ?_⟩
      have him := List.mem_map_of_mem (fun p => if p.1 == k then (k, v) else p) h
      simpa [hq] using him
  · rw [alSet_neg v (Bool.eq_false_iff.mpr hany)]
    exact ⟨q.2, List.mem_append_left _ h⟩

theorem alDel_sub {κ ν : Type} [BEq κ] {m : List (κ × ν)} {k : κ} {q : κ × ν}
    (h : q ∈ alDel m k) : q ∈ m :=
  List.mem_of_mem_filter h

theorem alDel_length {ν : Type} {m : List (Nat × ν)} {j : Nat} {e : ν}
    (hnd : (m.map Prod.fst).Nodup) (hm : (j, e) ∈ m) :
    (alDel m j).length + 1 = m.length := by
  induction m with
  | nil => cases hm
  | cons p t ih =>
    rcases List.mem_cons.mp hm with heq | hmt
    · have hj : p.1 = j := by rw [← heq]
      have hclean : ∀ q ∈ t, q.1 ≠ j := by
        intro q hq hqj
        have : p.1 ∈ t.map Prod.fst := by
          rw [hj, ← hqj]; exact List.mem_map_of_mem Prod.fst hq
        exact (List.nodup_cons.mp hnd).1 this
      have : alDel (p :: t) j = t := by
        simp only [alDel, List.filter_cons]
        rw [if_neg (by simp [hj])]
        exact List.filter_eq_self.mpr (fun q hq => by simp [hclean q hq])
      simp [this]
    · have hpj : p.1 ≠ j := by
        intro hpj
        have : p.1 ∈ t.map Prod.fst := by
          rw [hpj]; exact List.mem_map_of_mem Prod.fst hmt
        exact (List.nodup_cons.mp hnd).1 this
      have : alDel (p :: t) j = p :: alDel t j := by
        simp only [alDel, List.filter_cons]
        rw [if_pos (by simp [hpj])]
      rw [this]
      simp only [List.length_cons]
      have := ih (List.nodup_cons.mp hnd).2 hmt
      omega

theorem alGet_none_keys {κ ν : Type} [BEq κ] [LawfulBEq κ] {m : List (κ × ν)}
    {k : κ} (h : alGet m k = none) : ∀ p ∈ m, p.1 ≠ k := by
  intro p hp heq
  have hf : m.find? (fun q => q.1 == k) = none := by
    simpa [alGet] using h
  exact (List.find?_eq_none.mp hf p hp) (by simp [heq])

/-! ## Oldest-entry scan lemmas -/

theorem findOldestGo_spec (l : TabMap) :
    ∀ (best : Option Nat) (bestTs : Nat),
    (findOldestGo l best bestTs = best ∧ ∀ p ∈ l, bestTs ≤ p.2.timestamp) ∨
    (∃ j e, findOldestGo l best bestTs = some j ∧ (j, e) ∈ l ∧
      e.timestamp < bestTs ∧ ∀ p ∈ l, e.timestamp ≤ p.2.timestamp) := by
  induction l with
  | nil => intro best bestTs; left; exact ⟨rfl, by simp⟩
  | cons hd t ih =>
    intro best bestTs
    obtain ⟨id, d⟩ := hd
    by_cases h : d.timestamp < bestTs
    · rcases ih (some id) d.timestamp with ⟨he, hall⟩ | ⟨j, e, he, hm, hlt, hall⟩
      · right
        refine ⟨id, d, ?_, List.mem_cons_self _ _, h, ?_⟩
        · simpa [findOldestGo, h] using he
        · intro q hq
          rcases List.mem_cons.mp hq with rfl | hq
          · exact Nat.le_refl _
          · exact hall q hq
      · right
        refine ⟨j, e, ?_, List.mem_cons_of_mem _ hm, Nat.lt_trans hlt h, ?_⟩
        · simpa [findOldestGo, h] using he
        · intro q hq
          rcases List.mem_cons.mp hq with rfl | hq
          · exact Nat.le_of_lt hlt
          · exact hall q hq
    · rcases ih best bestTs with ⟨he, hall⟩ | ⟨j, e, he, hm, hlt, hall⟩
      · left
        refine ⟨by simpa [findOldestGo, h] using he, ?_⟩
        intro q hq
        rcases List.mem_cons.mp hq with rfl | hq
        · exact Nat.le_of_not_lt h
        · exact hall q hq
      · right
        refine ⟨j, e, ?_, List.mem_cons_of_mem _ hm, hlt, ?_⟩
        · simpa [findOldestGo, h] using he
        · intro q hq
          rcases List.mem_cons.mp hq with rfl | hq
          · exact Nat.le_of_lt (Nat.lt_of_lt_of_le hlt (Nat.le_of_not_lt h))
          · exact hall q hq

theorem findOldest_min {m : TabMap} {now : Nat} (hne : m ≠ [])
    (hts : ∀ p ∈ m, p.2.timestamp < now) :
    ∃ j e, findOldest m now = some j ∧ (j, e) ∈ m ∧
      ∀ p ∈ m, e.timestamp ≤ p.2.timestamp := by
  rcases findOldestGo_spec m none now with ⟨_, hall⟩ | ⟨j, e, he, hm, _, hall⟩
  · obtain ⟨p, hp⟩ := List.exists_mem_of_ne_nil m hne
    exact absurd (hts p hp) (Nat.not_lt.mpr (hall p hp))
  · exact ⟨j, e, he, hm, hall⟩

/-! ## Frame lemmas for `deleteCookiesForDomain` -/

@[simp] theorem delete_tabData (s : BgState) (d : String) (now : Nat)
    (store : List Cookie) :
    (deleteCookiesForDomain s d now store).state.tabData = s.tabData := by
  unfold deleteCookiesForDomain runDeletionPass
  repeat' split
  all_goals rfl

@[simp] theorem delete_pending (s : BgState) (d : String) (now : Nat)
    (store : List Cookie) :
    (deleteCookiesForDomain s d now store).state.pendingDeletions
      = s.pendingDeletions := by
  unfold deleteCookiesForDomain runDeletionPass
  repeat' split
  all_goals rfl

@[simp] theorem delete_enabled (s : BgState) (d : String) (now : Nat)
    (store : List Cookie) :
    (deleteCookiesForDomain s d now store).state.isEnabled = s.isEnabled := by
  unfold deleteCookiesForDomain runDeletionPass
  repeat' split
  all_goals rfl

@[simp] theorem delete_shutdown (s : BgState) (d : String) (now : Nat)
    (store : List Cookie) :
    (deleteCookiesForDomain s d now store).state.isShuttingDown
      = s.isShuttingDown := by
  unfold deleteCookiesForDomain runDeletionPass
  repeat' split
  all_goals rfl

/-- A valid URL is a nonempty string. -/
theorem valid_ne_empty {url : String} (h : isValidUrl url = true) :
    (url != "") = true := by
  by_contra hne
  have : url = "" := by
    simpa using hne
  rw [this] at h
  exact absurd h (by decide)

/-! ## Pending-set dedup invariant lemmas -/

theorem countP_set_congr {α : Type} (p : α → Bool) :
    ∀ (l : List α) (i : Nat) (a b : α),
    l[i]? = some a → p a = p b → (l.set i b).countP p = l.countP p
  | [], i, a, b, h, _ => by simp at h
  | x :: t, 0, a, b, h, hp => by
    simp only [List.getElem?_cons_zero, Option.some.injEq] at h
    subst h
    simp [List.countP_cons, hp]
  | x :: t, i + 1, a, b, h, hp => by
    simp only [List.getElem?_cons_succ] at h
    simp [List.countP_cons, countP_set_congr p t i a b h hp]

theorem countP_set_drop {α : Type} (p : α → Bool) :
    ∀ (l : List α) (i : Nat) (a b : α),
    l[i]? = some a → p a = true → p b = false →
    (l.set i b).countP p + 1 = l.countP p
  | [], i, a, b, h, _, _ => by simp at h
  | x :: t, 0, a, b, h, hpa, hpb => by
    simp only [List.getElem?_cons_zero, Option.some.injEq] at h
    subst h
    simp [List.countP_cons, hpa, hpb]
  | x :: t, i + 1, a, b, h, hpa, hpb => by
    simp only [List.getElem?_cons_succ] at h
    have := countP_set_drop p t i a b h hpa hpb
    simp only [List.set_cons_succ, List.countP_cons]
    omega

theorem finishPass_actInv (d : String) (s : AState) (i : Nat) (t : Pass)
    (h : s.tasks[i]? = some t) (hph : t.phase ≠ Phase.finished)
    (hinv : ActInv d s) : ActInv d (finishPass s i t) := by
  obtain ⟨hc, hle, hor⟩ := hinv
  have hmem : t ∈ s.tasks := List.getElem?_mem h
  unfold inFlightFor at hc hle
  by_cases hdd : t.dom = d
  · have horig : t.origin = Origin.activation := hor t hmem hdd hph
    have horigb : (t.origin == Origin.activation) = true := by
      rw [horig]; rfl
    have hpa : (fun q => q.dom == d && q.phase != Phase.finished) t = true := by
      simp [hdd, hph]
    have hpb : (fun q => q.dom == d && q.phase != Phase.finished)
        { t with phase := Phase.finished } = false := by
      simp
    have hdrop := countP_set_drop
      (fun q => q.dom == d && q.phase != Phase.finished) s.tasks i t
      { t with phase := Phase.finished } h hpa hpb
    have hfl1 : List.countP (fun q => q.dom == d && q.phase != Phase.finished)
        s.tasks = 1 := by omega
    have herase : s.pending.erase t.dom = s.pending.erase d := by rw [hdd]
    refine ⟨?_, ?_, ?_⟩
    · simp only [finishPass, inFlightFor]
      rw [if_pos horigb, herase, List.count_erase_self]
      omega
    · simp only [finishPass, inFlightFor]
      omega
    · intro t2 ht2 hd2 hp2
      simp only [finishPass] at ht2
      rcases List.mem_or_eq_of_mem_set ht2 with hin | rfl
      · exact hor t2 hin hd2 hp2
      · exact absurd rfl hp2
  · have hsame : (fun q => q.dom == d && q.phase != Phase.finished) t
        = (fun q => q.dom == d && q.phase != Phase.finished)
          { t with phase := Phase.finished } := by
      simp [hdd]
    have hcong := countP_set_congr
      (fun q => q.dom == d && q.phase != Phase.finished) s.tasks i t
      { t with phase := Phase.finished } h hsame
    refine ⟨?_, ?_, ?_⟩
    · simp only [finishPass, inFlightFor]
      rw [hcong]
      by_cases horigb : (t.origin == Origin.activation) = true
      · rw [if_pos horigb, List.count_erase_of_ne (fun heq => hdd heq.symm)]
        exact hc
      · rw [if_neg horigb]
        exact hc
    · simp only [finishPass, inFlightFor]
      rw [hcong]
      exact hle
    · intro t2 ht2 hd2 hp2
      simp only [finishPass] at ht2
      rcases List.mem_or_eq_of_mem_set ht2 with hin | rfl
      · exact hor t2 hin hd2 hp2
      · exact absurd rfl hp2

theorem beginPass_actInv (d d2 : String) (s : AState) (o : Origin) (now : Nat)
    (hinv : ActInv d s)
    (hok : d2 = d → o = Origin.activation ∧ d ∉ s.pending) :
    ActInv d (beginPass s d2 o now) := by
  obtain ⟨hc, hle, hor⟩ := hinv
  unfold inFlightFor at hc hle
  unfold beginPass
  split
  · exact ⟨hc, hle, hor⟩
  · split
    · exact ⟨hc, hle, hor⟩
    · have hnewP : ∀ (z : Pass), z = (⟨d2, stripWww d2, o, Phase.atGetAll⟩ : Pass) →
          List.countP (fun q => q.dom == d && q.phase != Phase.finished) [z]
            = (if d2 = d then 1 else 0) := by
        intro z hz
        subst hz
        by_cases hdz : d2 = d <;> simp [hdz]
      by_cases hdd : d2 = d
      · obtain ⟨ho, hnp⟩ := hok hdd
        subst hdd
        subst ho
        have hcnt0 : s.pending.count d2 = 0 := List.count_eq_zero.mpr hnp
        refine ⟨?_, ?_, ?_⟩
        · simp only [inFlightFor, List.countP_append]
          rw [if_pos (show (Origin.activation == Origin.activation) = true
              from rfl), List.count_append, hnewP _ rfl, if_pos rfl,
            List.count_singleton_self]
          omega
        · simp only [inFlightFor, List.countP_append]
          rw [hnewP _ rfl, if_pos rfl]
          omega
        · intro t2 ht2 hd2 hp2
          simp only at ht2
          rcases List.mem_append.mp ht2 with hin | hin
          · exact hor t2 hin hd2 hp2
          · rcases List.mem_singleton.mp hin with rfl
            rfl
      · refine ⟨?_, ?_, ?_⟩
        · simp only [inFlightFor, List.countP_append]
          rw [hnewP _ rfl]
          have hpend : List.count d (if (o == Origin.activation) = true
              then s.pending ++ [d2] else s.pending)
              = List.count d s.pending := by
            split
            · rw [List.count_append]
              have : List.count d [d2] = 0 := by
                rw [List.count_eq_zero]
                intro hmem
                exact hdd (List.mem_singleton.mp hmem).symm
              omega
            · rfl
          rw [hpend, if_neg hdd]
          omega
        · simp only [inFlightFor, List.countP_append]
          rw [hnewP _ rfl, if_neg hdd]
          omega
        · intro t2 ht2 hd2 hp2
          simp only at ht2
          rcases List.mem_append.mp ht2 with hin | hin
          · exact hor t2 hin hd2 hp2
          · rcases List.mem_singleton.mp hin with rfl
            exact absurd hd2 hdd

theorem astep_actInv (d : String) (s : AState) (st : AStep)
    (hinv : ActInv d s) (hst : isDirectStartFor d st = false) :
    ActInv d (astep s st) := by
  cases st with
  | startActivation d2 now =>
    simp only [astep]
    split
    · exact hinv
    · split
      · exact hinv
      · next hguard =>
        refine beginPass_actInv d d2 s Origin.activation now hinv ?_
        intro hdd
        subst hdd
        refine ⟨rfl, ?_⟩
        intro hmem
        apply hguard
        simp
        exact Or.inr hmem
  | startDirect d2 now =>
    simp only [astep]
    have hdd : d2 ≠ d := by
      simpa [isDirectStartFor] using hst
    exact beginPass_actInv d d2 s Origin.direct now hinv
      (fun h => absurd h hdd)
  | resumeGetAll i now =>
    obtain ⟨hc, hle, hor⟩ := hinv
    simp only [astep]
    cases h : s.tasks[i]? with
    | none => exact ⟨hc, hle, hor⟩
    | some t =>
      dsimp only
      by_cases hph : (t.phase == Phase.atGetAll) = true
      · rw [if_pos hph]
        have hphe : t.phase = Phase.atGetAll := eq_of_beq hph
        have hsame : (fun q => q.dom == d && q.phase != Phase.finished) t
            = (fun q => q.dom == d && q.phase != Phase.finished)
              { t with phase := Phase.atRemovals } := by
          simp only [hphe]
          rfl
        have hcong := countP_set_congr
          (fun q => q.dom == d && q.phase != Phase.finished) s.tasks i t
          { t with phase := Phase.atRemovals } h hsame
        refine ⟨?_, ?_, ?_⟩
        · simp only [inFlightFor]
          rw [hcong]
          exact hc
        · simp only [inFlightFor]
          rw [hcong]
          exact hle
        · intro t2 ht2 hd2 hp2
          simp only at ht2
          rcases List.mem_or_eq_of_mem_set ht2 with hin | rfl
          · exact hor t2 hin hd2 hp2
          · exact hor t (List.getElem?_mem h) hd2 (by simp [hphe])
      · rw [if_neg hph]
        exact ⟨hc, hle, hor⟩
  | failGetAll i =>
    simp only [astep]
    cases h : s.tasks[i]? with
    | none => exact hinv
    | some t =>
      dsimp only
      by_cases hph : (t.phase == Phase.atGetAll) = true
      · rw [if_pos hph]
        exact finishPass_actInv d s i t h (by simp [eq_of_beq hph]) hinv
      · rw [if_neg hph]
        exact hinv
  | resumeRemovals i =>
    simp only [astep]
    cases h : s.tasks[i]? with
    | none => exact hinv
    | some t =>
      dsimp only
      by_cases hph : (t.phase == Phase.atRemovals) = true
      · rw [if_pos hph]
        exact finishPass_actInv d s i t h (by simp [eq_of_beq hph]) hinv
      · rw [if_neg hph]
        exact hinv

theorem runAsync_actInv (d : String) :
    ∀ (σ : List AStep) (s : AState), ActInv d s →
    (σ.all (fun st => !isDirectStartFor d st)) = true →
    ActInv d (runAsync s σ)
  | [], _, hinv, _ => hinv
  | st :: rest, s, hinv, hall => by
    rw [List.all_cons, Bool.and_eq_true] at hall
    exact runAsync_actInv d rest (astep s st)
      (astep_actInv d s st hinv (by simpa using hall.1)) hall.2

/-! ## Claims -/

set_option maxRecDepth 10000 in
/-- Claim C1: the claim states that the registry never exceeds `MAX_TABS`
entries after any tab-created / tab-updated / history-navigation /
tab-removed / window-removed event. The `onUpdated` listener, however,
inserts untracked tabs with no capacity check, so 101 update events for
distinct tabs drive the registry to 101 entries — contradicting the bound
the code itself announces (`// Maximum number of tabs to track`,
`// Enforce tab limit with Map`). -/
theorem C1_bound_exceeded_on_update_path :
    (runTrace [] initOn c1Trace).tabData.length = MAX_TABS + 1 := by decide

set_option maxRecDepth 4000 in
/-- Claim C2 counterexample: a new tab (id 500) is admitted by the
tab-created listener while the registry holds `MAX_TABS` entries, yet no
entry is evicted: every entry's `lastSeen` equals the event time 77, the
scan `data.timestamp < oldestTimestamp` is initialized with
`oldestTimestamp = Date.now()` and uses strict `<`, so it selects nothing
and the registry grows to 101 entries with every old entry still present —
not "exactly one existing entry is evicted". -/
theorem C2_no_eviction_at_equal_timestamps :
    (step fullRegistrySameStamp (Ev.created 500 "http://b.com" 3 false) 77
        []).state.tabData.length = MAX_TABS + 1 ∧
    (fullRegistrySameStamp.tabData.all
      (fun p => (step fullRegistrySameStamp
        (Ev.created 500 "http://b.com" 3 false) 77
        []).state.tabData.contains p)) = true := by decide

/-- Claim C2 (amended): when a new tab is admitted by a tab-created event
while the registry holds `MAX_TABS` entries, *and* every current entry's
`lastSeen` is strictly earlier than the event time, *and* no tab id is 0
(the code's truthiness test `if (oldestTabId)` would drop an eviction of tab
0), then exactly one entry with minimal `lastSeen` is evicted before the new
entry is appended, leaving the registry at `MAX_TABS` entries; and a
tab-updated event for an already-tracked tab never evicts anything — every
previously tracked tab id survives. -/
theorem C2_eviction_of_oldest :
    (∀ (s : BgState) (k w now : Nat) (url : String) (store : List Cookie)
      (d : String),
      alGet s.tabData k = none →
      s.tabData.length = MAX_TABS →
      (∀ p ∈ s.tabData, p.2.timestamp < now) →
      (∀ p ∈ s.tabData, p.1 ≠ 0) →
      (s.tabData.map Prod.fst).Nodup →
      isValidUrl url = true → getDomain url = some d →
      ∃ j e, (j, e) ∈ s.tabData ∧
        (∀ p ∈ s.tabData, e.timestamp ≤ p.2.timestamp) ∧
        (step s (Ev.created k url w false) now store).state.tabData
          = alDel s.tabData j ++ [(k, ⟨url, d, now, w⟩)] ∧
        (step s (Ev.created k url w false) now store).state.tabData.length
          = MAX_TABS) ∧
    (∀ (s : BgState) (id w now : Nat) (cu : Option String) (sc : Bool)
      (tu : Option String) (store : List Cookie) (od : TabEntry),
      alGet s.tabData id = some od →
      ∀ p ∈ s.tabData, ∃ v,
        (p.1, v) ∈ (step s (Ev.updated id cu sc tu w) now store).state.tabData) := by
  constructor
  · intro s k w now url store d hnew hlen hts hkeys hnd hv hd
    have hne : s.tabData ≠ [] := by
      intro h
      rw [h] at hlen
      exact absurd hlen (by decide)
    obtain ⟨j, e, hfo, hmem, hmin⟩ := findOldest_min hne hts
    have hj0 : j ≠ 0 := hkeys (j, e) hmem
    have hjb : (j != 0) = true := by simp [hj0]
    have hvcond : (url != "" && isValidUrl url) = true := by
      rw [valid_ne_empty hv, hv]; rfl
    have hkeysnew : ∀ p ∈ alDel s.tabData j, (p.1 == k) = false := by
      intro p hp
      have := alGet_none_keys hnew p (alDel_sub hp)
      simp [this]
    have hanyf : (alDel s.tabData j).any (fun p => p.1 == k) = false := by
      rw [List.any_eq_false]
      intro p hp
      simp [hkeysnew p hp]
    have hcap : MAX_TABS ≤ s.tabData.length := le_of_eq hlen.symm
    have hstep : (step s (Ev.created k url w false) now store).state.tabData
        = alDel s.tabData j ++ [(k, ⟨url, d, now, w⟩)] := by
      simp only [step, Bool.false_eq_true, if_false, hvcond, if_true, hd]
      rw [if_pos hcap, hfo]
      dsimp only
      rw [hjb]
      simpa using alSet_neg _ hanyf
    refine ⟨j, e, hmem, hmin, hstep, ?_⟩
    rw [hstep, List.length_append]
    have := alDel_length hnd hmem
    simp only [List.length_cons, List.length_nil]
    omega
  · intro s id w now cu sc tu store od hg p hp
    simp only [step]
    cases tu with
    | none => exact ⟨p.2, by simpa [noop] using hp⟩
    | some u =>
      by_cases htr : (triggersUpdate cu sc && (u != "") && isValidUrl u) = true
      · simp only [htr, if_true]
        rw [hg]
        dsimp only
        by_cases hch : domainChanged od.domain (getDomain u) = true
        · simp only [hch, if_true]
          cases hd : getDomain u with
          | some nd =>
            simp only [delete_tabData]
            exact alSet_keeps hp id _
          | none => exact ⟨p.2, by simpa [delete_tabData] using hp⟩
        · simp only [hch, Bool.false_eq_true, if_false]
          cases hd : getDomain u with
          | some nd => exact alSet_keeps hp id _
          | none => exact ⟨p.2, by simpa [noop] using hp⟩
      · simp only [htr, Bool.false_eq_true, if_false]
        exact ⟨p.2, by simpa [noop] using hp⟩

set_option maxRecDepth 4000 in
/-- Witness for `C2_eviction_of_oldest` on a concrete full registry with
strictly increasing timestamps, plus a concrete non-evicting update. -/
theorem C2_eviction_of_oldest_witness :
    (∃ j e, (j, e) ∈ fullRegistryAged.tabData ∧
      (∀ p ∈ fullRegistryAged.tabData, e.timestamp ≤ p.2.timestamp) ∧
      (step fullRegistryAged (Ev.created 777 "http://b.com" 3 false) 500
          []).state.tabData
        = alDel fullRegistryAged.tabData j ++ [(777, ⟨"http://b.com", "b.com", 500, 3⟩)] ∧
      (step fullRegistryAged (Ev.created 777 "http://b.com" 3 false) 500
          []).state.tabData.length = MAX_TABS) ∧
    (∀ p ∈ fullRegistryAged.tabData, ∃ v,
      (p.1, v) ∈ (step fullRegistryAged
        (Ev.updated 1 (some "http://b.com") false (some "http://b.com") 3) 500
        []).state.tabData) :=
  ⟨C2_eviction_of_oldest.1 fullRegistryAged 777 3 500 "http://b.com" [] "b.com"
    (by decide) (by decide) (by decide) (by decide) (by decide) (by decide)
    (by decide),
   C2_eviction_of_oldest.2 fullRegistryAged 1 3 500 (some "http://b.com") false
    (some "http://b.com") [] ⟨"http://a.com", "a.com", 1, 3⟩ (by decide)⟩

/-- Claim C4 counterexample: a deletion pass for `a.com` that completes at
time `t = 0` records cache timestamp `0`, which the JS truthiness test
`if (cachedTime && ...)` treats as no entry; a second request at `t' = 1`
(well inside `CACHE_TIMEOUT`) therefore reads the cookie store again instead
of being a no-op. -/
theorem C4_zero_timestamp_not_cached :
    (deleteCookiesForDomain initOn "a.com" 0 []).state.domainCookieCache
      = [("a.com", 0)] ∧
    (deleteCookiesForDomain
        (deleteCookiesForDomain initOn "a.com" 0 []).state "a.com" 1 []).getAllCalls
      = 1 ∧
    (1 : Nat) - 0 < CACHE_TIMEOUT := by decide

/-- Claim C4 (amended): if the cache records a completion timestamp `t ≥ 1`
for the (www-stripped) domain and a further request arrives at `t'` with
`t' - t < CACHE_TIMEOUT`, the request is a complete no-op: no `getAll` read,
no `remove` calls, and the state (registry, pending set, cache) is returned
unchanged. The `t ≥ 1` side condition is forced by the counterexample: the
code's truthiness test discards a recorded timestamp of `0`. -/
theorem C4_fresh_cache_noop (s : BgState) (d : String) (t tp : Nat)
    (store : List Cookie)
    (hc : alGet s.domainCookieCache (stripWww d) = some t)
    (h1 : 1 ≤ t) (hfresh : tp - t < CACHE_TIMEOUT) :
    deleteCookiesForDomain s d tp store = ⟨s, 0, []⟩ := by
  unfold deleteCookiesForDomain
  split
  · rfl
  · rw [hc]
    dsimp only
    rw [if_pos]
    simp only [Bool.and_eq_true, bne_iff_ne, ne_eq, decide_eq_true_eq]
    exact ⟨by omega, hfresh⟩

/-- Witness for `C4_fresh_cache_noop` at a concrete state. -/
theorem C4_fresh_cache_noop_witness :
    deleteCookiesForDomain ⟨[], true, false, [], [("a.com", 7)]⟩ "a.com" 9 []
      = ⟨⟨[], true, false, [], [("a.com", 7)]⟩, 0, []⟩ :=
  C4_fresh_cache_noop ⟨[], true, false, [], [("a.com", 7)]⟩ "a.com" 7 9 []
    (by decide) (by decide) (by decide)

/-- Claim C5 counterexample: the spec's symmetric normalization (strip `.`
and `www.` from both sides) and the code's relation disagree. The code
strips `www.` only from the tab domain, so a stored cookie domain
`www.a.com` is NOT related to the tab domain `sub.a.com`, while the spec's
description makes them related (both normalize into the `a.com` family). -/
theorem C5_normalization_disagrees :
    related "www.a.com" "sub.a.com" = false ∧
    specRelated "www.a.com" "sub.a.com" = true := by decide

/-- Claim C5 (amended): the relation the deletion pass actually uses strips
one leading `.` from the cookie domain only and one leading `www.` from the
tab domain only, then tests mutual substring containment; the two examples
in the claim hold as stated. The first conjunct exhibits the cookie
selection of a real pass (enabled, not shutting down, no fresh cache entry)
as exactly the filter by that asymmetric relation. -/
theorem C5_asymmetric_relation :
    (∀ (s : BgState) (d : String) (now : Nat) (store : List Cookie),
      s.isEnabled = true → s.isShuttingDown = false → d ≠ "" →
      alGet s.domainCookieCache (stripWww d) = none →
      (deleteCookiesForDomain s d now store).removeCalls =
        (store.filter (fun c => c.domain != "" &&
          (strHas (stripDotOnce c.domain) (stripWww d) ||
           strHas (stripWww d) (stripDotOnce c.domain)))).map
          (fun c => (cookieUrl c, c.name))) ∧
    related "mail.example.com" "example.com" = true ∧
    related "other.org" "example.com" = false := by
  refine ⟨?_, by decide, by decide⟩
  intro s d now store he hs hd hc
  unfold deleteCookiesForDomain
  rw [if_neg, hc]
  · rfl
  · simp [he, hs, hd]

/-- Claim C7: for a tracked tab whose recorded domain is `a.com`, with the
feature enabled, a navigation to `http://b.com` that surfaces both as a
URL-change event and as a load-complete event issues exactly one deletion
request — for `a.com` — and afterwards the registry maps the tab to
`b.com`. -/
theorem C7_single_deletion_request_on_navigation (k w ts0 t1 t2 : Nat) (u0 : String) (pend : List String)
    (cache : List (String × Nat)) (store : List Cookie) :
    (step ⟨[(k, ⟨u0, "a.com", ts0, w⟩)], true, false, pend, cache⟩
        (Ev.updated k (some "http://b.com") false (some "http://b.com") w) t1
        store).requests ++
      (step (step ⟨[(k, ⟨u0, "a.com", ts0, w⟩)], true, false, pend, cache⟩
          (Ev.updated k (some "http://b.com") false (some "http://b.com") w) t1
          store).state
        (Ev.updated k none true (some "http://b.com") w) t2 store).requests
      = ["a.com"] ∧
    (step (step ⟨[(k, ⟨u0, "a.com", ts0, w⟩)], true, false, pend, cache⟩
        (Ev.updated k (some "http://b.com") false (some "http://b.com") w) t1
        store).state
      (Ev.updated k none true (some "http://b.com") w) t2 store).state.tabData
      = [(k, ⟨"http://b.com", "b.com", t2, w⟩)] := by
  have hgd : getDomain "http://b.com" = some "b.com" := by decide
  have hcond1 : (triggersUpdate (some "http://b.com") false
      && ("http://b.com" != "") && isValidUrl "http://b.com") = true := by decide
  have hcond2 : (triggersUpdate none true
      && ("http://b.com" != "") && isValidUrl "http://b.com") = true := by decide
  have hch1 : domainChanged "a.com" (some "b.com") = true := by decide
  have hch2 : domainChanged "b.com" (some "b.com") = false := by decide
  have hg1 : alGet ([(k, ⟨u0, "a.com", ts0, w⟩)] : TabMap) k
      = some ⟨u0, "a.com", ts0, w⟩ := by simp [alGet]
  have hg2 : alGet ([(k, ⟨"http://b.com", "b.com", t1, w⟩)] : TabMap) k
      = some ⟨"http://b.com", "b.com", t1, w⟩ := by simp [alGet]
  have hset1 : alSet ([(k, ⟨u0, "a.com", ts0, w⟩)] : TabMap) k
      ⟨"http://b.com", "b.com", t1, w⟩ = [(k, ⟨"http://b.com", "b.com", t1, w⟩)] := by
    simp [alSet]
  have hset2 : alSet ([(k, ⟨"http://b.com", "b.com", t1, w⟩)] : TabMap) k
      ⟨"http://b.com", "b.com", t2, w⟩ = [(k, ⟨"http://b.com", "b.com", t2, w⟩)] := by
    simp [alSet]
  have h1td : (step ⟨[(k, ⟨u0, "a.com", ts0, w⟩)], true, false, pend, cache⟩
      (Ev.updated k (some "http://b.com") false (some "http://b.com") w) t1
      store).state.tabData = [(k, ⟨"http://b.com", "b.com", t1, w⟩)] := by
    simp only [step, hcond1, if_true, hg1, hgd, hch1, delete_tabData]
    exact hset1
  have h1rq : (step ⟨[(k, ⟨u0, "a.com", ts0, w⟩)], true, false, pend, cache⟩
      (Ev.updated k (some "http://b.com") false (some "http://b.com") w) t1
      store).requests = ["a.com"] := by
    simp only [step, hcond1, if_true, hg1, hgd, hch1]
  have h2 : ∀ (s : BgState), s.tabData = [(k, ⟨"http://b.com", "b.com", t1, w⟩)] →
      (step s (Ev.updated k none true (some "http://b.com") w) t2 store).requests = [] ∧
      (step s (Ev.updated k none true (some "http://b.com") w) t2 store).state.tabData
        = [(k, ⟨"http://b.com", "b.com", t2, w⟩)] := by
    intro s hs
    constructor
    · simp only [step, hcond2, if_true, hs, hg2, hgd, hch2, Bool.false_eq_true,
        if_false]
    · simp only [step, hcond2, if_true, hs, hg2, hgd, hch2, Bool.false_eq_true,
        if_false]
      exact hset2
  obtain ⟨h2rq, h2td⟩ := h2 _ h1td
  exact ⟨by rw [h1rq, h2rq]; rfl, h2td⟩

/-- Claim C8 counterexample: a same-domain history navigation
(`onHistoryStateUpdated` for tab 1, from `http://a.com/p` to
`http://a.com/q`) leaves the registry entry completely untouched — URL and
`lastSeen` keep their old values (5, not the event time 50) — because the
listener only writes the registry inside its domain-changed branch. This
refutes "every navigation event for an already-tracked tab updates that
tab's registry entry". -/
theorem C8_history_same_domain_no_update :
    (step ⟨[(1, ⟨"http://a.com/p", "a.com", 5, 7⟩)], true, false, [], []⟩
        (Ev.historyNav 1 "http://a.com/q") 50 []).state
      = ⟨[(1, ⟨"http://a.com/p", "a.com", 5, 7⟩)], true, false, [], []⟩ ∧
    alGet (step ⟨[(1, ⟨"http://a.com/p", "a.com", 5, 7⟩)], true, false, [], []⟩
        (Ev.historyNav 1 "http://a.com/q") 50 []).state.tabData 1
      = some ⟨"http://a.com/p", "a.com", 5, 7⟩ := by decide

/-- Claim C8 (amended): (i) a navigation delivered through the tab-updated
listener updates the tracked tab's entry (URL, domain, `lastSeen`) including
same-domain navigations; (ii) a history-state navigation to the same domain
leaves the state untouched (the entry is only rewritten when the domain
changed); (iii) with the feature enabled and not shutting down, the periodic
sweep keeps exactly the entries whose `lastSeen` is within the staleness
threshold of `now`. -/
theorem C8_navigation_updates_and_sweep :
    (∀ (s : BgState) (id w now : Nat) (u : String) (cu : Option String) (sc : Bool)
      (store : List Cookie) (od : TabEntry) (nd : String),
      triggersUpdate cu sc = true →
      isValidUrl u = true → getDomain u = some nd →
      alGet s.tabData id = some od →
      (step s (Ev.updated id cu sc (some u) w) now store).state.tabData
        = alSet s.tabData id ⟨u, nd, now, w⟩ ∧
      alGet (step s (Ev.updated id cu sc (some u) w) now store).state.tabData id
        = some ⟨u, nd, now, w⟩) ∧
    (∀ (s : BgState) (id now : Nat) (u : String) (store : List Cookie)
      (od : TabEntry) (nd : String),
      isValidUrl u = true → getDomain u = some nd →
      alGet s.tabData id = some od → od.domain = nd →
      step s (Ev.historyNav id u) now store = noop s) ∧
    (∀ (s : BgState) (now : Nat) (store : List Cookie),
      s.isEnabled = true → s.isShuttingDown = false →
      ∀ p ∈ s.tabData,
        (p ∈ (step s Ev.periodicCleanup now store).state.tabData ↔
          ¬(STALE_MS < now - p.2.timestamp))) := by
  refine ⟨?_, ?_, ?_⟩
  · intro s id w now u cu sc store od nd htr hv hd hg
    have hu : (u != "") = true := valid_ne_empty hv
    have hcond : (triggersUpdate cu sc && (u != "") && isValidUrl u) = true := by
      rw [htr, hu, hv]; rfl
    have hbase : (step s (Ev.updated id cu sc (some u) w) now store).state.tabData
        = alSet s.tabData id ⟨u, nd, now, w⟩ := by
      simp only [step, hcond, if_true, hg, hd]
      by_cases hch : domainChanged od.domain (some nd) = true
      · simp [hch, delete_tabData]
      · simp [hch]
    exact ⟨hbase, by rw [hbase]; exact alGet_alSet_self _ _ _⟩
  · intro s id now u store od nd hv hd hg hsame
    simp only [step, hv, if_true, hg, hd]
    have : domainChanged od.domain (some nd) = false := by
      simp [domainChanged, hsame]
    simp [this]
  · intro s now store he hsd p hp
    simp only [step, he, hsd]
    simp [List.mem_filter, hp]

/-- Witness for `C8_navigation_updates_and_sweep`: a same-domain navigation
through the tab-updated listener does rewrite the entry. -/
theorem C8_navigation_updates_and_sweep_witness :
    (step ⟨[(1, ⟨"http://a.com/p", "a.com", 5, 7⟩)], true, false, [], []⟩
        (Ev.updated 1 (some "http://a.com/q") false (some "http://a.com/q") 7)
        50 []).state.tabData
      = alSet [(1, ⟨"http://a.com/p", "a.com", 5, 7⟩)] 1
          ⟨"http://a.com/q", "a.com", 50, 7⟩ ∧
    alGet (step ⟨[(1, ⟨"http://a.com/p", "a.com", 5, 7⟩)], true, false, [], []⟩
        (Ev.updated 1 (some "http://a.com/q") false (some "http://a.com/q") 7)
        50 []).state.tabData 1
      = some ⟨"http://a.com/q", "a.com", 50, 7⟩ :=
  C8_navigation_updates_and_sweep.1
    ⟨[(1, ⟨"http://a.com/p", "a.com", 5, 7⟩)], true, false, [], []⟩ 1 7 50
    "http://a.com/q" (some "http://a.com/q") false []
    ⟨"http://a.com/p", "a.com", 5, 7⟩ "a.com"
    (by decide) (by decide) (by decide) (by decide)

/-- Claim C10: registry upserts are independent of the enabled flag — for a
tab-created or tab-updated event, the resulting registry is identical
whether the feature is enabled or disabled (only the deletion side effect is
suppressed when disabled); in particular, after a disable clears the
registry, a tab-created event re-populates it while the feature is off
(second conjunct). -/
theorem C10_upserts_flag_independent :
    (∀ (s : BgState) (e : Ev) (now : Nat) (store : List Cookie),
      isUpsertEvent e →
      (step { s with isEnabled := true } e now store).state.tabData =
      (step { s with isEnabled := false } e now store).state.tabData) ∧
    (step ⟨[], false, false, [], []⟩ (Ev.created 1 "http://a.com" 3 false) 9
        []).state.tabData
      = [(1, ⟨"http://a.com", "a.com", 9, 3⟩)] := by
  refine ⟨?_, by decide⟩
  intro s e now store hup
  cases e with
  | created id url w incog =>
    simp only [step]
    by_cases hi : incog = true
    · simp [hi, noop]
    · simp only [hi]
      by_cases hv : (url != "" && isValidUrl url) = true
      · simp only [hv, if_true, if_false, Bool.false_eq_true]
        cases hd : getDomain url with
        | none => simp [noop]
        | some dom => simp
      · simp [hv, noop]
  | updated id cu sc tu w =>
    clear hup
    simp only [step]
    cases tu with
    | none => rfl
    | some u =>
      by_cases htr : (triggersUpdate cu sc && (u != "") && isValidUrl u) = true
      · simp only [htr, if_true]
        cases hg : alGet s.tabData id with
        | none => cases hd : getDomain u <;> simp [hd, noop]
        | some od =>
          by_cases hch : domainChanged od.domain (getDomain u) = true
          · simp only [hg, hch, if_true]
            cases hd : getDomain u <;> simp [hd, delete_tabData]
          · simp only [hg, hch]
            cases hd : getDomain u <;> simp [hd, noop]
      · simp [htr, noop]
  | historyNav id url => exact hup.elim
  | removed id => exact hup.elim
  | windowRemoved wid => exact hup.elim
  | message m => exact hup.elim
  | periodicCleanup => exact hup.elim

/-- Witness for `C10_upserts_flag_independent` at a concrete upsert event. -/
theorem C10_upserts_flag_independent_witness :
    isUpsertEvent (Ev.created 2 "http://a.com" 3 false) ∧
    (step { initOn with isEnabled := true }
        (Ev.created 2 "http://a.com" 3 false) 9 []).state.tabData =
    (step { initOn with isEnabled := false }
        (Ev.created 2 "http://a.com" 3 false) 9 []).state.tabData :=
  ⟨trivial, C10_upserts_flag_independent.1 initOn
    (Ev.created 2 "http://a.com" 3 false) 9 [] trivial⟩

/-- Witness for `C5_asymmetric_relation` on a concrete pass over a store
holding cookies for `mail.example.com` and `other.org`. -/
theorem C5_asymmetric_relation_witness :
    (deleteCookiesForDomain initOn "example.com" 9
        [⟨"mail.example.com", "sid", "/", false⟩,
         ⟨"other.org", "sid", "/", false⟩]).removeCalls
      = ([(⟨"mail.example.com", "sid", "/", false⟩ : Cookie),
          ⟨"other.org", "sid", "/", false⟩].filter
          (fun c => c.domain != "" &&
            (strHas (stripDotOnce c.domain) (stripWww "example.com") ||
             strHas (stripWww "example.com") (stripDotOnce c.domain)))).map
          (fun c => (cookieUrl c, c.name)) :=
  C5_asymmetric_relation.1 initOn "example.com" 9
    [⟨"mail.example.com", "sid", "/", false⟩, ⟨"other.org", "sid", "/", false⟩]
    (by decide) (by decide) (by decide) (by decide)

/-- Claim C9: processing `toggleStateChanged` with `enabled = false` empties
the registry, disables the feature, leaves the pending set and cache
untouched, and issues no deletion request and no cookie-store call at all. -/
theorem C9_disable_clears_registry_silently (s : BgState) (now : Nat)
    (store : List Cookie) :
    step s (Ev.message (Msg.toggleStateChanged false)) now store =
      ⟨⟨[], false, s.isShuttingDown, s.pendingDeletions, s.domainCookieCache⟩,
        [], 0, []⟩ := rfl

/-- Claim C6: when an activation-path deletion pass for domain `d` (present
once in the pending set) resolves its store read, the cache entry for the
pass's `www.`-stripped key is recorded with the current timestamp while `d`
is still pending; only when the pass then completes is `d` removed from the
pending set, the cache entry remaining. On a store read failure the pass
aborts — cache, mutation counter and issued removes untouched — but the
pending entry is still cleared by the handler's `finally`. -/
theorem C6_cache_before_pending_clear (s : AState) (i : Nat) (t : Pass) (d : String) (now : Nat)
    (ht : s.tasks[i]? = some t) (hor : t.origin = Origin.activation)
    (hph : t.phase = Phase.atGetAll) (hd : t.dom = d)
    (hcnt : s.pending.count d = 1) :
    (alGet (astep s (AStep.resumeGetAll i now)).cache t.main = some now ∧
     d ∈ (astep s (AStep.resumeGetAll i now)).pending ∧
     d ∉ (astep (astep s (AStep.resumeGetAll i now))
        (AStep.resumeRemovals i)).pending ∧
     alGet (astep (astep s (AStep.resumeGetAll i now))
        (AStep.resumeRemovals i)).cache t.main = some now) ∧
    (d ∉ (astep s (AStep.failGetAll i)).pending ∧
     (astep s (AStep.failGetAll i)).cache = s.cache ∧
     (astep s (AStep.failGetAll i)).mutationPasses = s.mutationPasses ∧
     (astep s (AStep.failGetAll i)).removesIssued = s.removesIssued) := by
  have hlen : i < s.tasks.length := by
    rcases List.getElem?_eq_some_iff.mp ht with ⟨h, _⟩
    exact h
  have hphb : (t.phase == Phase.atGetAll) = true := by rw [hph]; rfl
  have horb : (t.origin == Origin.activation) = true := by rw [hor]; rfl
  have hmem : d ∈ s.pending := List.count_pos_iff.mp (by omega)
  have hnot : d ∉ s.pending.erase d := by
    have := List.count_erase_self d s.pending
    rw [hcnt] at this
    exact List.not_mem_of_count_eq_zero (by omega)
  have e1 : astep s (AStep.resumeGetAll i now)
      = { s with cache := alSet s.cache t.main now,
                 mutationPasses := s.mutationPasses + 1,
                 removesIssued := s.removesIssued ++ (s.store.filter
                   (fun c => c.domain != "" && related c.domain t.dom)).map
                   (fun c => (cookieUrl c, c.name)),
                 tasks := s.tasks.set i { t with phase := Phase.atRemovals } } := by
    simp only [astep]
    rw [ht]
    simp [hphb]
  have ht1 : (astep s (AStep.resumeGetAll i now)).tasks[i]?
      = some { t with phase := Phase.atRemovals } := by
    rw [e1]
    exact List.getElem?_set_self (by simpa using hlen)
  have eR : ∀ (x : AState) (t2 : Pass), x.tasks[i]? = some t2 →
      t2.phase = Phase.atRemovals →
      astep x (AStep.resumeRemovals i) = finishPass x i t2 := by
    intro x t2 hx hp2
    simp only [astep]
    rw [hx]
    simp [hp2]
  have e2 : astep (astep s (AStep.resumeGetAll i now)) (AStep.resumeRemovals i)
      = finishPass (astep s (AStep.resumeGetAll i now)) i
          { t with phase := Phase.atRemovals } :=
    eR _ _ ht1 rfl
  have e3 : astep s (AStep.failGetAll i) = finishPass s i t := by
    simp only [astep]
    rw [ht]
    simp [hphb]
  refine ⟨⟨?_, ?_, ?_, ?_⟩, ?_, ?_, ?_, ?_⟩
  · rw [e1]
    exact alGet_alSet_self _ _ _
  · rw [e1]
    exact hmem
  · rw [e2]
    simp only [finishPass, horb, if_true, e1]
    simpa [hd] using hnot
  · rw [e2]
    simp only [finishPass]
    rw [e1]
    exact alGet_alSet_self _ _ _
  · rw [e3]
    simp only [finishPass, horb, if_true]
    simpa [hd] using hnot
  · rw [e3]; rfl
  · rw [e3]; rfl
  · rw [e3]; rfl

/-- Witness for `C6_cache_before_pending_clear` on a concrete in-flight
activation pass. -/
theorem C6_cache_before_pending_clear_witness :
    (alGet (astep ⟨true, false, ["a.com"], [], [⟨"a.com", "sess", "/", false⟩],
        [⟨"a.com", "a.com", Origin.activation, Phase.atGetAll⟩], 1, 0, []⟩
        (AStep.resumeGetAll 0 42)).cache "a.com" = some 42 ∧
     "a.com" ∈ (astep ⟨true, false, ["a.com"], [], [⟨"a.com", "sess", "/", false⟩],
        [⟨"a.com", "a.com", Origin.activation, Phase.atGetAll⟩], 1, 0, []⟩
        (AStep.resumeGetAll 0 42)).pending ∧
     "a.com" ∉ (astep (astep ⟨true, false, ["a.com"], [], [⟨"a.com", "sess", "/", false⟩],
        [⟨"a.com", "a.com", Origin.activation, Phase.atGetAll⟩], 1, 0, []⟩
        (AStep.resumeGetAll 0 42)) (AStep.resumeRemovals 0)).pending ∧
     alGet (astep (astep ⟨true, false, ["a.com"], [], [⟨"a.com", "sess", "/", false⟩],
        [⟨"a.com", "a.com", Origin.activation, Phase.atGetAll⟩], 1, 0, []⟩
        (AStep.resumeGetAll 0 42)) (AStep.resumeRemovals 0)).cache "a.com"
       = some 42) ∧
    ("a.com" ∉ (astep ⟨true, false, ["a.com"], [], [⟨"a.com", "sess", "/", false⟩],
        [⟨"a.com", "a.com", Origin.activation, Phase.atGetAll⟩], 1, 0, []⟩
        (AStep.failGetAll 0)).pending ∧
     (astep ⟨true, false, ["a.com"], [], [⟨"a.com", "sess", "/", false⟩],
        [⟨"a.com", "a.com", Origin.activation, Phase.atGetAll⟩], 1, 0, []⟩
        (AStep.failGetAll 0)).cache = [] ∧
     (astep ⟨true, false, ["a.com"], [], [⟨"a.com", "sess", "/", false⟩],
        [⟨"a.com", "a.com", Origin.activation, Phase.atGetAll⟩], 1, 0, []⟩
        (AStep.failGetAll 0)).mutationPasses = 0 ∧
     (astep ⟨true, false, ["a.com"], [], [⟨"a.com", "sess", "/", false⟩],
        [⟨"a.com", "a.com", Origin.activation, Phase.atGetAll⟩], 1, 0, []⟩
        (AStep.failGetAll 0)).removesIssued = []) :=
  C6_cache_before_pending_clear
    ⟨true, false, ["a.com"], [], [⟨"a.com", "sess", "/", false⟩],
      [⟨"a.com", "a.com", Origin.activation, Phase.atGetAll⟩], 1, 0, []⟩
    0 ⟨"a.com", "a.com", Origin.activation, Phase.atGetAll⟩ "a.com" 42
    (by decide) (by decide) (by decide) (by decide) (by decide)


/-- Claim C3 counterexample: two deletion requests for `a.com` arriving via
the direct path (as the tab-removal, navigation and window-removal handlers
issue them) overlap: after the two starts, two passes for the domain are
simultaneously in flight — the pending set never saw them — and both passes
then run the cookie-store mutation block, producing two mutation passes and
a duplicated `remove` call. This refutes "at most one actual cookie-store
mutation pass runs, deduplicated via the pending set" for pairs of event
paths outside tab activation. -/
theorem C3_direct_requests_not_deduplicated :
    inFlightFor "a.com" (runAsync (asyncInit [⟨"a.com", "sess", "/", false⟩])
      [AStep.startDirect "a.com" 10, AStep.startDirect "a.com" 11]) = 2 ∧
    (runAsync (asyncInit [⟨"a.com", "sess", "/", false⟩])
      [AStep.startDirect "a.com" 10, AStep.startDirect "a.com" 11,
       AStep.resumeGetAll 0 12, AStep.resumeGetAll 1 13]).mutationPasses = 2 ∧
    (runAsync (asyncInit [⟨"a.com", "sess", "/", false⟩])
      [AStep.startDirect "a.com" 10, AStep.startDirect "a.com" 11,
       AStep.resumeGetAll 0 12, AStep.resumeGetAll 1 13]).removesIssued
      = [("http://a.com/", "sess"), ("http://a.com/", "sess")] := by decide

/-- Claim C3 (amended): the pending-set dedup holds on the activation path:
in every interleaving of pipeline steps from startup in which all direct
starts avoid domain `d` (requests for `d` only arrive via the activation
handler), at most one deletion pass for `d` is in flight at any time — a
second activation request while one is pending starts nothing. Requests from
the tab-removal, navigation and window-removal paths bypass the pending set
and enjoy no such guarantee. -/
theorem C3_activation_path_dedup (d : String) (store : List Cookie) (σ : List AStep)
    (hσ : (σ.all (fun st => !isDirectStartFor d st)) = true) :
    inFlightFor d (runAsync (asyncInit store) σ) ≤ 1 :=
  (runAsync_actInv d σ (asyncInit store)
    ⟨rfl, by simp [inFlightFor, asyncInit], by simp [asyncInit]⟩ hσ).2.1

/-- Witness for `C3_activation_path_dedup` on a concrete interleaving with
two overlapping activation requests. -/
theorem C3_activation_path_dedup_witness :
    ([AStep.startActivation "a.com" 1, AStep.startActivation "a.com" 2,
      AStep.resumeGetAll 0 3].all
        (fun st => !isDirectStartFor "a.com" st)) = true ∧
    inFlightFor "a.com" (runAsync (asyncInit [⟨"a.com", "sess", "/", false⟩])
      [AStep.startActivation "a.com" 1, AStep.startActivation "a.com" 2,
       AStep.resumeGetAll 0 3]) ≤ 1 :=
  ⟨by decide, C3_activation_path_dedup "a.com" [⟨"a.com", "sess", "/", false⟩]
    [AStep.startActivation "a.com" 1, AStep.startActivation "a.com" 2,
     AStep.resumeGetAll 0 3] (by decide)⟩

end CookieExt
